import Mathlib

/-!
# Verification of the `oaf` path-codec and its helpers

A shallow embedding, in Lean 4, of the reversible path codec in
`path-string/src/lib.rs` (functions `should_be_encoded`, `encode_bytes`,
`decode_bytes`, `encode_os`, `decode_os`, `path_to_path_string`,
`path_string_to_path_buf` and the Windows byte helpers `bytes_to_u16`,
`u16_to_bytes`), of the MRU list in `src/mru_list.rs`, and of the tilde
compression helpers in `src/paths.rs`.

Modelling conventions:
* A Unix path unit sequence (the bytes of an `OsString`) is a `List Nat`
  whose members are below 256.
* Rust `String` / `str` values are `List Nat` of Unicode scalar values
  (code points).  Conversions between the two views go through the UTF-8
  encoder / decoder defined below, which mirrors the validity rules used
  by `str::from_utf8` (the function behind `Path::to_str`).
* The external `base64` crate (standard alphabet, with padding) is
  modelled by `base64Encode` / `base64Decode` below; decoding is partial
  and `none` marks a malformed payload, which in the Rust source makes
  the `expect` call in `decode_bytes` panic.
-/

/-! ## Base64, standard alphabet with padding -/

/-- Modelled from the spec: the binary-to-text transform used by
`encode_bytes` / `decode_bytes` is the external `base64` crate with
`base64::STANDARD` (standard alphabet, with padding); the crate itself is
not part of this repository.  `b64Char` maps a 6-bit value to the ASCII
code of its standard-alphabet digit. -/
def b64Char (n : Nat) : Nat :=
  if n < 26 then 65 + n
  else if n < 52 then 97 + (n - 26)
  else if n < 62 then 48 + (n - 52)
  else if n = 62 then 43
  else 47

/-- Modelled from the spec: inverse digit lookup of the standard base64
alphabet; `none` on any ASCII code that is not a digit of the alphabet. -/
def b64Val (c : Nat) : Option Nat :=
  if 65 ≤ c ∧ c ≤ 90 then some (c - 65)
  else if 97 ≤ c ∧ c ≤ 122 then some (26 + (c - 97))
  else if 48 ≤ c ∧ c ≤ 57 then some (52 + (c - 48))
  else if c = 43 then some 62
  else if c = 47 then some 63
  else none

/-- Modelled from the spec: base64 encoding (standard alphabet, with
padding) of a byte list, producing the list of ASCII codes of the
encoded text.  61 is the ASCII code of the padding character. -/
def base64Encode : List Nat → List Nat
  | [] => []
  | [b1] => [b64Char (b1 / 4), b64Char (b1 % 4 * 16), 61, 61]
  | [b1, b2] =>
      [b64Char (b1 / 4), b64Char (b1 % 4 * 16 + b2 / 16),
       b64Char (b2 % 16 * 4), 61]
  | b1 :: b2 :: b3 :: rest =>
      b64Char (b1 / 4) :: b64Char (b1 % 4 * 16 + b2 / 16) ::
      b64Char (b2 % 16 * 4 + b3 / 64) :: b64Char (b3 % 64) ::
      base64Encode rest

/-- Modelled from the spec: base64 decoding (standard alphabet, with
padding).  Returns `none` on wrong length or on characters outside the
alphabet — the malformed-payload failure mode. -/
def base64Decode : List Nat → Option (List Nat)
  | [] => some []
  | c1 :: c2 :: c3 :: c4 :: rest =>
      if rest = [] then
        if c3 = 61 ∧ c4 = 61 then
          match b64Val c1, b64Val c2 with
          | some v1, some v2 => some [v1 * 4 + v2 / 16]
          | _, _ => none
        else if c4 = 61 then
          match b64Val c1, b64Val c2, b64Val c3 with
          | some v1, some v2, some v3 =>
              some [v1 * 4 + v2 / 16, v2 % 16 * 16 + v3 / 4]
          | _, _, _ => none
        else
          match b64Val c1, b64Val c2, b64Val c3, b64Val c4 with
          | some v1, some v2, some v3, some v4 =>
              some [v1 * 4 + v2 / 16, v2 % 16 * 16 + v3 / 4, v3 % 4 * 64 + v4]
          | _, _, _, _ => none
      else
        match b64Val c1, b64Val c2, b64Val c3, b64Val c4 with
        | some v1, some v2, some v3, some v4 =>
            (base64Decode rest).map
              (fun ds => (v1 * 4 + v2 / 16) :: (v2 % 16 * 16 + v3 / 4) ::
                         (v3 % 4 * 64 + v4) :: ds)
        | _, _, _, _ => none
  | _ => none

theorem b64Val_b64Char : ∀ n, n < 64 → b64Val (b64Char n) = some n := by
  decide

theorem b64Char_ne_pad (n : Nat) : b64Char n ≠ 61 := by
  unfold b64Char
  split_ifs <;> omega

/-- Base64 round trip: decoding an encoded byte list (all bytes below
256) gives back the bytes. -/
theorem base64Decode_base64Encode :
    ∀ bs : List Nat, (∀ b ∈ bs, b < 256) →
      base64Decode (base64Encode bs) = some bs := by
  intro bs
  induction bs using base64Encode.induct with
  | case1 =>
      intro _
      simp [base64Encode, base64Decode]
  | case2 b1 =>
      intro h
      have hb1 : b1 < 256 := h b1 (by simp)
      have h1 : b1 / 4 < 64 := by omega
      have h2 : b1 % 4 * 16 < 64 := by omega
      simp [base64Encode, base64Decode, b64Val_b64Char _ h1,
        b64Val_b64Char _ h2]
      omega
  | case3 b1 b2 =>
      intro h
      have hb1 : b1 < 256 := h b1 (by simp)
      have hb2 : b2 < 256 := h b2 (by simp)
      have h1 : b1 / 4 < 64 := by omega
      have h2 : b1 % 4 * 16 + b2 / 16 < 64 := by omega
      have h3 : b2 % 16 * 4 < 64 := by omega
      simp [base64Encode, base64Decode, b64Val_b64Char _ h1,
        b64Val_b64Char _ h2, b64Val_b64Char _ h3, b64Char_ne_pad]
      omega
  | case4 b1 b2 b3 rest ih =>
      intro h
      have hb1 : b1 < 256 := h b1 (by simp)
      have hb2 : b2 < 256 := h b2 (by simp)
      have hb3 : b3 < 256 := h b3 (by simp)
      have hrest : ∀ b ∈ rest, b < 256 := by
        intro b hb
        exact h b (by simp [hb])
      have h1 : b1 / 4 < 64 := by omega
      have h2 : b1 % 4 * 16 + b2 / 16 < 64 := by omega
      have h3 : b2 % 16 * 4 + b3 / 64 < 64 := by omega
      have h4 : b3 % 64 < 64 := by omega
      by_cases hr : rest = []
      · subst hr
        simp [base64Encode, base64Decode, b64Val_b64Char _ h1,
          b64Val_b64Char _ h2, b64Val_b64Char _ h3, b64Val_b64Char _ h4,
          b64Char_ne_pad]
        omega
      · have henc : base64Encode rest ≠ [] := by
          intro hc
          cases rest with
          | nil => exact hr rfl
          | cons x xs =>
              cases xs with
              | nil => simp [base64Encode] at hc
              | cons y ys =>
                  cases ys with
                  | nil => simp [base64Encode] at hc
                  | cons z zs => simp [base64Encode] at hc
        simp [base64Encode, base64Decode, b64Val_b64Char _ h1,
          b64Val_b64Char _ h2, b64Val_b64Char _ h3, b64Val_b64Char _ h4,
          henc, ih hrest]
        omega

/-! ## UTF-8: the validity rules behind `Path::to_str` / `str::from_utf8` -/

/-- A byte is a UTF-8 continuation byte (0x80–0xBF). -/
def isCont (b : Nat) : Bool := 128 ≤ b && b ≤ 191

/-- Range check on the first continuation byte of a 3-byte sequence
(rules out overlong forms after 0xE0 and surrogates after 0xED). -/
def cont3ok (b1 b2 : Nat) : Bool :=
  if b1 = 224 then 160 ≤ b2 && b2 ≤ 191
  else if b1 = 237 then 128 ≤ b2 && b2 ≤ 159
  else isCont b2

/-- Range check on the first continuation byte of a 4-byte sequence
(rules out overlong forms after 0xF0 and values above U+10FFFF after 0xF4). -/
def cont4ok (b1 b2 : Nat) : Bool :=
  if b1 = 240 then 144 ≤ b2 && b2 ≤ 191
  else if b1 = 244 then 128 ≤ b2 && b2 ≤ 143
  else isCont b2

/-- Decode one UTF-8 encoded scalar value from the front of a byte list,
returning the scalar and the remaining bytes; `none` if the front is not
a well-formed UTF-8 sequence. -/
def utf8DecodeStep : List Nat → Option (Nat × List Nat)
  | [] => none
  | b1 :: rest =>
    if b1 < 128 then some (b1, rest)
    else if b1 < 194 then none
    else if b1 < 224 then
      match rest with
      | b2 :: rest2 =>
          if isCont b2 then some ((b1 - 192) * 64 + (b2 - 128), rest2)
          else none
      | [] => none
    else if b1 < 240 then
      match rest with
      | b2 :: b3 :: rest3 =>
          if cont3ok b1 b2 && isCont b3 then
            some ((b1 - 224) * 4096 + (b2 - 128) * 64 + (b3 - 128), rest3)
          else none
      | _ => none
    else if b1 < 245 then
      match rest with
      | b2 :: b3 :: b4 :: rest4 =>
          if cont4ok b1 b2 && isCont b3 && isCont b4 then
            some ((b1 - 240) * 262144 + (b2 - 128) * 4096 +
                  (b3 - 128) * 64 + (b4 - 128), rest4)
          else none
      | _ => none
    else none

/-- Fuel-driven UTF-8 decoding loop; the fuel dominates the list length
so the recursion is structural (and computable by the kernel). -/
def utf8DecodeFuel : Nat → List Nat → Option (List Nat)
  | _, [] => some []
  | 0, _ :: _ => none
  | fuel + 1, b :: tail =>
      match utf8DecodeStep (b :: tail) with
      | none => none
      | some (c, rest) => (utf8DecodeFuel fuel rest).map (fun cs => c :: cs)

/-- UTF-8 decoding of a byte list into its list of Unicode scalar values;
`none` when the bytes are not valid UTF-8.  This models Rust
`str::from_utf8` (the function behind `Path::to_str` on Unix), which
accepts exactly the well-formed UTF-8 byte sequences. -/
def utf8Decode (bs : List Nat) : Option (List Nat) :=
  utf8DecodeFuel bs.length bs

/-- UTF-8 encoding of one Unicode scalar value (what Rust `String` stores
for one `char`). -/
def utf8EncodeChar (c : Nat) : List Nat :=
  if c < 128 then [c]
  else if c < 2048 then [192 + c / 64, 128 + c % 64]
  else if c < 65536 then [224 + c / 4096, 128 + c / 64 % 64, 128 + c % 64]
  else [240 + c / 262144, 128 + c / 4096 % 64, 128 + c / 64 % 64, 128 + c % 64]

/-- UTF-8 encoding of a list of Unicode scalar values: the byte content
of the Rust `String` holding those characters.  `PathBuf::from(s)` for a
`&str` stores exactly these bytes. -/
def utf8Encode : List Nat → List Nat
  | [] => []
  | c :: cs => utf8EncodeChar c ++ utf8Encode cs

/-- A Unicode scalar value as Rust `char` allows it: below 0x110000 and
not a surrogate. -/
def ValidScalar (c : Nat) : Prop :=
  c < 1114112 ∧ ¬(55296 ≤ c ∧ c ≤ 57343)

instance (c : Nat) : Decidable (ValidScalar c) := by
  unfold ValidScalar
  infer_instance

theorem utf8EncodeChar_ne_nil (c : Nat) : utf8EncodeChar c ≠ [] := by
  unfold utf8EncodeChar
  split_ifs <;> simp

/-- Inversion: re-encoding the scalar decoded by one step reproduces the
consumed bytes. -/
theorem utf8EncodeChar_step :
    ∀ bs c rest, utf8DecodeStep bs = some (c, rest) →
      utf8EncodeChar c ++ rest = bs := by
  intro bs c rest h
  match bs with
  | [] => simp [utf8DecodeStep] at h
  | b1 :: tail =>
      rw [utf8DecodeStep.eq_def] at h
      simp only at h
      split_ifs at h with h1 h2 h3 h4 h5
      · simp only [Option.some.injEq, Prod.mk.injEq] at h
        obtain ⟨rfl, rfl⟩ := h
        simp [utf8EncodeChar, if_pos h1]
      · cases tail with
        | nil => simp at h
        | cons b2 rest2 =>
            simp only at h
            split_ifs at h with hc
            simp only [Option.some.injEq, Prod.mk.injEq] at h
            obtain ⟨rfl, rfl⟩ := h
            have hb2 : 128 ≤ b2 ∧ b2 ≤ 191 := by
              simpa [isCont] using hc
            unfold utf8EncodeChar
            rw [if_neg (by omega), if_pos (by omega)]
            have e1 : ((b1 - 192) * 64 + (b2 - 128)) / 64 = b1 - 192 := by
              omega
            have e2 : ((b1 - 192) * 64 + (b2 - 128)) % 64 = b2 - 128 := by
              omega
            rw [e1, e2]
            simp only [List.cons_append, List.nil_append, List.cons.injEq]
            refine ⟨by omega, by omega, trivial⟩
      · match tail with
        | [] => simp at h
        | [b2] => simp at h
        | b2 :: b3 :: rest3 =>
            simp only at h
            split_ifs at h with hc
            simp only [Option.some.injEq, Prod.mk.injEq] at h
            obtain ⟨rfl, rfl⟩ := h
            simp only [Bool.and_eq_true] at hc
            obtain ⟨hc2, hc3⟩ := hc
            have hb3 : 128 ≤ b3 ∧ b3 ≤ 191 := by
              simpa [isCont] using hc3
            have hb2 : 128 ≤ b2 ∧ b2 ≤ 191 := by
              unfold cont3ok at hc2
              split_ifs at hc2 with e1 e2
              · simp only [Bool.and_eq_true, decide_eq_true_eq] at hc2
                omega
              · simp only [Bool.and_eq_true, decide_eq_true_eq] at hc2
                omega
              · simp only [isCont, Bool.and_eq_true, decide_eq_true_eq] at hc2
                omega
            have hlow : ¬((b1 - 224) * 4096 + (b2 - 128) * 64 + (b3 - 128)
                < 2048) := by
              unfold cont3ok at hc2
              split_ifs at hc2 with e1 e2
              · simp only [Bool.and_eq_true, decide_eq_true_eq] at hc2
                omega
              · omega
              · omega
            unfold utf8EncodeChar
            rw [if_neg (by omega), if_neg hlow, if_pos (by omega)]
            have e1 : ((b1 - 224) * 4096 + (b2 - 128) * 64 + (b3 - 128)) / 4096
                = b1 - 224 := by omega
            have e2 : ((b1 - 224) * 4096 + (b2 - 128) * 64 + (b3 - 128)) / 64
                % 64 = b2 - 128 := by omega
            have e3 : ((b1 - 224) * 4096 + (b2 - 128) * 64 + (b3 - 128)) % 64
                = b3 - 128 := by omega
            rw [e1, e2, e3]
            simp only [List.cons_append, List.nil_append, List.cons.injEq]
            refine ⟨by omega, by omega, by omega, trivial⟩
      · match tail with
        | [] => simp at h
        | [b2] => simp at h
        | [b2, b3] => simp at h
        | b2 :: b3 :: b4 :: rest4 =>
            simp only at h
            split_ifs at h with hc
            simp only [Option.some.injEq, Prod.mk.injEq] at h
            obtain ⟨rfl, rfl⟩ := h
            simp only [Bool.and_eq_true] at hc
            obtain ⟨⟨hc2, hc3⟩, hc4⟩ := hc
            have hb3 : 128 ≤ b3 ∧ b3 ≤ 191 := by
              simpa [isCont] using hc3
            have hb4 : 128 ≤ b4 ∧ b4 ≤ 191 := by
              simpa [isCont] using hc4
            have hb2 : 128 ≤ b2 ∧ b2 ≤ 191 := by
              unfold cont4ok at hc2
              split_ifs at hc2 with e1 e2
              · simp only [Bool.and_eq_true, decide_eq_true_eq] at hc2
                omega
              · simp only [Bool.and_eq_true, decide_eq_true_eq] at hc2
                omega
              · simp only [isCont, Bool.and_eq_true, decide_eq_true_eq] at hc2
                omega
            have hlow : ¬((b1 - 240) * 262144 + (b2 - 128) * 4096 +
                (b3 - 128) * 64 + (b4 - 128) < 65536) := by
              unfold cont4ok at hc2
              split_ifs at hc2 with e1 e2
              · simp only [Bool.and_eq_true, decide_eq_true_eq] at hc2
                omega
              · omega
              · omega
            unfold utf8EncodeChar
            rw [if_neg (by omega), if_neg (by omega), if_neg hlow]
            have e1 : ((b1 - 240) * 262144 + (b2 - 128) * 4096 +
                (b3 - 128) * 64 + (b4 - 128)) / 262144 = b1 - 240 := by omega
            have e2 : ((b1 - 240) * 262144 + (b2 - 128) * 4096 +
                (b3 - 128) * 64 + (b4 - 128)) / 4096 % 64 = b2 - 128 := by
              omega
            have e3 : ((b1 - 240) * 262144 + (b2 - 128) * 4096 +
                (b3 - 128) * 64 + (b4 - 128)) / 64 % 64 = b3 - 128 := by omega
            have e4 : ((b1 - 240) * 262144 + (b2 - 128) * 4096 +
                (b3 - 128) * 64 + (b4 - 128)) % 64 = b4 - 128 := by omega
            rw [e1, e2, e3, e4]
            simp only [List.cons_append, List.nil_append, List.cons.injEq]
            refine ⟨by omega, by omega, by omega, by omega, trivial⟩

/-- Re-encoding a successfully decoded byte list gives back the bytes
(fuel-level statement). -/
theorem utf8Encode_utf8DecodeFuel :
    ∀ (fuel : Nat) (bs cs : List Nat), utf8DecodeFuel fuel bs = some cs →
      utf8Encode cs = bs := by
  intro fuel
  induction fuel with
  | zero =>
      intro bs cs h
      cases bs with
      | nil =>
          simp only [utf8DecodeFuel, Option.some.injEq] at h
          subst h
          rfl
      | cons b tail => simp [utf8DecodeFuel] at h
  | succ fuel ih =>
      intro bs cs h
      cases bs with
      | nil =>
          simp only [utf8DecodeFuel, Option.some.injEq] at h
          subst h
          rfl
      | cons b tail =>
          rw [utf8DecodeFuel] at h
          split at h
          · simp at h
          · rename_i c rest heq
            simp only [Option.map_eq_some'] at h
            obtain ⟨cs2, hdec, hcs⟩ := h
            subst hcs
            simp only [utf8Encode, ih rest cs2 hdec]
            exact utf8EncodeChar_step (b :: tail) c rest heq

/-- Re-encoding a successfully decoded byte list gives back the bytes. -/
theorem utf8Encode_utf8Decode :
    ∀ bs cs : List Nat, utf8Decode bs = some cs → utf8Encode cs = bs := by
  intro bs cs h
  exact utf8Encode_utf8DecodeFuel bs.length bs cs h

/-- One step of decoding after encoding a valid scalar recovers the
scalar and leaves the tail untouched. -/
theorem utf8DecodeStep_encodeChar (c : Nat) (hc : ValidScalar c)
    (tail : List Nat) :
    utf8DecodeStep (utf8EncodeChar c ++ tail) = some (c, tail) := by
  obtain ⟨hlt, hsur⟩ := hc
  unfold utf8EncodeChar
  split_ifs with s1 s2 s3
  · rw [utf8DecodeStep.eq_def]
    simp only [List.cons_append, List.nil_append]
    rw [if_pos s1]
  · rw [utf8DecodeStep.eq_def]
    simp only [List.cons_append, List.nil_append]
    rw [if_neg (by omega), if_neg (by omega), if_pos (by omega)]
    rw [if_pos (by simp only [isCont, Bool.and_eq_true, decide_eq_true_eq]; omega)]
    simp only [Option.some.injEq, Prod.mk.injEq]
    constructor
    · omega
    · trivial
  · rw [utf8DecodeStep.eq_def]
    simp only [List.cons_append, List.nil_append]
    rw [if_neg (by omega), if_neg (by omega), if_neg (by omega),
      if_pos (by omega)]
    have hok : cont3ok (224 + c / 4096) (128 + c / 64 % 64) = true := by
      unfold cont3ok
      split_ifs with e1 e2
      · simp only [Bool.and_eq_true, decide_eq_true_eq]
        omega
      · simp only [Bool.and_eq_true, decide_eq_true_eq]
        omega
      · simp only [isCont, Bool.and_eq_true, decide_eq_true_eq]
        omega
    rw [if_pos (by simp only [hok, Bool.true_and, isCont,
      Bool.and_eq_true, decide_eq_true_eq]; omega)]
    simp only [Option.some.injEq, Prod.mk.injEq]
    constructor
    · omega
    · trivial
  · rw [utf8DecodeStep.eq_def]
    simp only [List.cons_append, List.nil_append]
    rw [if_neg (by omega), if_neg (by omega), if_neg (by omega),
      if_neg (by omega), if_pos (by omega)]
    have hok : cont4ok (240 + c / 262144) (128 + c / 4096 % 64) = true := by
      unfold cont4ok
      split_ifs with e1 e2
      · simp only [Bool.and_eq_true, decide_eq_true_eq]
        omega
      · simp only [Bool.and_eq_true, decide_eq_true_eq]
        omega
      · simp only [isCont, Bool.and_eq_true, decide_eq_true_eq]
        omega
    rw [if_pos (by simp only [hok, Bool.true_and, isCont,
      Bool.and_eq_true, decide_eq_true_eq]; omega)]
    simp only [Option.some.injEq, Prod.mk.injEq]
    constructor
    · omega
    · trivial

/-- Decoding an encoded list of valid scalars gives back the scalars,
for any fuel at least the byte length. -/
theorem utf8DecodeFuel_utf8Encode :
    ∀ (s : List Nat) (fuel : Nat), (∀ c ∈ s, ValidScalar c) →
      (utf8Encode s).length ≤ fuel →
      utf8DecodeFuel fuel (utf8Encode s) = some s := by
  intro s
  induction s with
  | nil =>
      intro fuel _ _
      cases fuel <;> rfl
  | cons c cs ih =>
      intro fuel h hfuel
      have hc : ValidScalar c := h c (by simp)
      have hcs : ∀ x ∈ cs, ValidScalar x := fun x hx => h x (by simp [hx])
      have henc : utf8Encode (c :: cs) = utf8EncodeChar c ++ utf8Encode cs :=
        rfl
      have hne : utf8EncodeChar c ≠ [] := utf8EncodeChar_ne_nil c
      cases fuel with
      | zero =>
          exfalso
          rw [henc] at hfuel
          cases hch : utf8EncodeChar c with
          | nil => exact hne hch
          | cons x xs =>
              rw [hch] at hfuel
              simp at hfuel
      | succ fuel =>
          rw [henc]
          cases hch : utf8EncodeChar c with
          | nil => exact absurd hch hne
          | cons x xs =>
              rw [List.cons_append, utf8DecodeFuel, ← List.cons_append,
                ← hch, utf8DecodeStep_encodeChar c hc]
              have hfuel2 : (utf8Encode cs).length ≤ fuel := by
                rw [henc, hch] at hfuel
                simp only [List.cons_append, List.length_cons,
                  List.length_append] at hfuel
                omega
              simp only [ih fuel hcs hfuel2, Option.map_some']

/-- Decoding an encoded list of valid scalars gives back the scalars. -/
theorem utf8Decode_utf8Encode :
    ∀ s : List Nat, (∀ c ∈ s, ValidScalar c) →
      utf8Decode (utf8Encode s) = some s := by
  intro s hs
  exact utf8DecodeFuel_utf8Encode s (utf8Encode s).length hs le_rfl

/-! ## The path codec of `path-string/src/lib.rs` (Unix configuration) -/

/-- The sentinel marker of `path-string/src/lib.rs` (non-Windows
configuration): the ASCII codes of the string under the name PREFIX in
the source.  It spells an impossible POSIX path, since POSIX defines
that path's first components as naming a device file. -/
def PREFIX : List Nat :=
  [47, 100, 101, 118, 47, 110, 117, 108, 108, 47, 98, 54, 52, 95]

/-- Rust `char::is_control`: the Unicode Cc category, i.e. U+0000–U+001F
together with U+007F–U+009F. -/
def rustIsControl (c : Nat) : Bool :=
  decide (c < 32) || (decide (127 ≤ c) && decide (c ≤ 159))

/-- `should_be_encoded` from `path-string/src/lib.rs`: a string needs
encoding when any of its characters is a control character. -/
def should_be_encoded (s : List Nat) : Bool :=
  s.any rustIsControl

/-- Rust `str::starts_with` for our code-point strings: `starts_with s
pre` is true when `pre` is an initial segment of `s`. -/
def starts_with : List Nat → List Nat → Bool
  | _, [] => true
  | [], _ :: _ => false
  | x :: xs, y :: ys => x == y && starts_with xs ys

/-- `encode_bytes` from `path-string/src/lib.rs`: the sentinel marker
followed by the base64 rendering of the raw bytes. -/
def encode_bytes (bytes : List Nat) : List Nat :=
  PREFIX ++ base64Encode bytes

/-- `decode_bytes` from `path-string/src/lib.rs`: strip the sentinel
marker length and base64-decode the remainder.  The Rust function calls
`expect` on the library result, so `none` here marks the panic on
malformed payloads. -/
def decode_bytes (encoded_str : List Nat) : Option (List Nat) :=
  base64Decode (encoded_str.drop PREFIX.length)

/-- `encode_os` (Unix): the `OsStr` bytes are passed through unchanged
to `encode_bytes`. -/
def encode_os (s : List Nat) : List Nat :=
  encode_bytes s

/-- `decode_os` (Unix): `OsString::from_vec` keeps the bytes as they
are. -/
def decode_os (bytes : List Nat) : List Nat :=
  bytes

/-- `path_to_path_string` from `path-string/src/lib.rs`: render the path
verbatim when its bytes form valid UTF-8 with no control characters,
otherwise emit the escaped token. -/
def path_to_path_string (p : List Nat) : List Nat :=
  match utf8Decode p with
  | some s => if ¬should_be_encoded s then s else encode_os p
  | none => encode_os p

/-- `path_string_to_path_buf` from `path-string/src/lib.rs`: a token
starting with the sentinel marker is decoded (the `Option` records the
possible panic inside `decode_bytes`); any other token is reinterpreted
as the UTF-8 bytes of its text. -/
def path_string_to_path_buf (s : List Nat) : Option (List Nat) :=
  if starts_with s PREFIX then
    (decode_bytes s).map decode_os
  else
    some (utf8Encode s)

/-! ## Windows byte helpers of `path-string/src/lib.rs` -/

/-- `bytes_to_u16` from `path-string/src/lib.rs`:
`((b1 as u16) << 8) + b2 as u16` for `u8` inputs; for `b1, b2 < 256`
neither the shift nor the sum can wrap in `u16`. -/
def bytes_to_u16 (b1 b2 : Nat) : Nat :=
  b1 * 256 + b2

/-- `u16_to_bytes` from `path-string/src/lib.rs`: the high byte
`(value >> 8) & 0xff` followed by the low byte `value & 0xff`. -/
def u16_to_bytes (value : Nat) : List Nat :=
  [value / 256 % 256, value % 256]

/-! ## Codec lemmas -/

theorem starts_with_append (pre rest : List Nat) :
    starts_with (pre ++ rest) pre = true := by
  induction pre with
  | nil => simp [starts_with]
  | cons x xs ih => simp [starts_with, ih]

theorem starts_with_drop :
    ∀ pre s : List Nat, starts_with s pre = true →
      pre ++ s.drop pre.length = s := by
  intro pre
  induction pre with
  | nil =>
      intro s _
      simp
  | cons y ys ih =>
      intro s h
      cases s with
      | nil => simp [starts_with] at h
      | cons x xs =>
          simp only [starts_with, Bool.and_eq_true, beq_iff_eq] at h
          obtain ⟨rfl, h2⟩ := h
          simp only [List.length_cons, List.drop_succ_cons, List.cons_append,
            List.cons.injEq]
          exact ⟨trivial, ih xs h2⟩

theorem rustIsControl_b64Char (n : Nat) : rustIsControl (b64Char n) = false := by
  unfold b64Char rustIsControl
  split_ifs <;> simp <;> omega

theorem base64Encode_no_control :
    ∀ bs : List Nat, (base64Encode bs).any rustIsControl = false := by
  intro bs
  induction bs using base64Encode.induct with
  | case1 => rfl
  | case2 b1 =>
      simp [base64Encode, rustIsControl_b64Char,
        show rustIsControl 61 = false from by decide]
  | case3 b1 b2 =>
      simp [base64Encode, rustIsControl_b64Char,
        show rustIsControl 61 = false from by decide]
  | case4 b1 b2 b3 rest ih =>
      simp [base64Encode, rustIsControl_b64Char, ih]

theorem starts_with_of_append :
    ∀ (pre1 pre2 s : List Nat), starts_with s (pre1 ++ pre2) = true →
      starts_with s pre1 = true := by
  intro pre1
  induction pre1 with
  | nil =>
      intro pre2 s _
      cases s <;> rfl
  | cons y ys ih =>
      intro pre2 s h
      cases s with
      | nil => simp [starts_with] at h
      | cons x xs =>
          simp only [List.cons_append, starts_with, Bool.and_eq_true] at h ⊢
          exact ⟨h.1, ih pre2 xs h.2⟩

/-- Decoding an escaped token produced by `encode_os` restores the raw
bytes (all below 256). -/
theorem path_string_to_path_buf_encode_os (p : List Nat)
    (hb : ∀ b ∈ p, b < 256) :
    path_string_to_path_buf (encode_os p) = some p := by
  unfold path_string_to_path_buf encode_os encode_bytes
  rw [if_pos (starts_with_append PREFIX (base64Encode p))]
  unfold decode_bytes
  rw [List.drop_left, base64Decode_base64Encode p hb]
  rfl

/-! ## Claim C1 -/

/-- C1 (amended): for every byte sequence `p` — other than those whose
bytes form valid, control-free UTF-8 text that itself starts with the
sentinel marker — decoding the encoded token reproduces `p` exactly:
`path_string_to_path_buf (path_to_path_string p) = some p`. -/
theorem C1_roundtrip (p : List Nat) (hb : ∀ b ∈ p, b < 256)
    (hx : ∀ s, utf8Decode p = some s → should_be_encoded s = false →
      starts_with s PREFIX = false) :
    path_string_to_path_buf (path_to_path_string p) = some p := by
  unfold path_to_path_string
  cases hdec : utf8Decode p with
  | none => exact path_string_to_path_buf_encode_os p hb
  | some s =>
      show path_string_to_path_buf
        (if ¬should_be_encoded s = true then s else encode_os p) = some p
      by_cases hsbe : should_be_encoded s
      · rw [show (if ¬should_be_encoded s = true then s else encode_os p) =
            encode_os p from by simp [hsbe]]
        exact path_string_to_path_buf_encode_os p hb
      · have hsbe' : should_be_encoded s = false := by
          simpa using hsbe
        rw [show (if ¬should_be_encoded s = true then s else encode_os p) =
            s from by simp [hsbe']]
        unfold path_string_to_path_buf
        rw [if_neg (by simp [hx s hdec hsbe'])]
        rw [utf8Encode_utf8Decode p s hdec]

/-- Witness for C1: the path `hello\t` (a tab forces the escaped branch)
round-trips. -/
theorem C1_roundtrip_witness :
    path_string_to_path_buf (path_to_path_string
      [104, 101, 108, 108, 111, 9]) = some [104, 101, 108, 108, 111, 9] :=
  C1_roundtrip [104, 101, 108, 108, 111, 9] (by decide)
    (fun s hs hc => by
      rw [show utf8Decode [104, 101, 108, 108, 111, 9] =
        some [104, 101, 108, 108, 111, 9] from by decide] at hs
      simp only [Option.some.injEq] at hs
      subst hs
      exact absurd hc (by decide))

/-- Counterexample to C1 as stated: the byte sequence spelling the text
of the sentinel marker followed by `aGVsbG8=` is valid control-free
UTF-8, so it is emitted verbatim, and decoding then strips the marker
and base64-decodes the tail to `hello` instead of the original path. -/
theorem C1_counterexample :
    path_string_to_path_buf (path_to_path_string
      (PREFIX ++ [97, 71, 86, 115, 98, 71, 56, 61])) ≠
      some (PREFIX ++ [97, 71, 86, 115, 98, 71, 56, 61]) := by
  decide

/-! ## Claim C2 -/

/-- C2: on a token carrying the sentinel marker followed by an invalid
base64 tail (here the single character `!`), the base64 decode inside
`decode_bytes` fails, so `path_string_to_path_buf` reaches the `expect`
call with an error value: the Rust code panics instead of returning the
reportable malformed-payload error the specification requires.  In this
embedding the `none` result is exactly that panic. -/
theorem C2_malformed_payload :
    path_string_to_path_buf (PREFIX ++ [33]) = none ∧
    decode_bytes (PREFIX ++ [33]) = none := by
  decide

/-! ## Claim C3 -/

/-- The ASCII codes of `/dev/null/`, the device-file part of the
sentinel marker. -/
def DEVNULL : List Nat := [47, 100, 101, 118, 47, 110, 117, 108, 108, 47]

/-- C3 (amended): a path whose encoding takes the verbatim branch yields
a token that does not start with the sentinel marker, provided its text
does not itself start with `/dev/null/` — the impossible-POSIX-path part
of the marker.  (The unrestricted statement fails: the marker's own text
is a perfectly constructible byte sequence, see the counterexample.) -/
theorem C3_verbatim_no_sentinel (p s : List Nat)
    (hdec : utf8Decode p = some s)
    (hsafe : should_be_encoded s = false)
    (hdev : starts_with s DEVNULL = false) :
    starts_with (path_to_path_string p) PREFIX = false := by
  have htok : path_to_path_string p = s := by
    unfold path_to_path_string
    rw [hdec]
    simp [hsafe]
  rw [htok]
  by_contra hcon
  have hpre : starts_with s PREFIX = true := by
    revert hcon
    cases starts_with s PREFIX <;> simp
  have : starts_with s DEVNULL = true := by
    have hsplit : PREFIX = DEVNULL ++ [98, 54, 52, 95] := by decide
    exact starts_with_of_append DEVNULL [98, 54, 52, 95] s
      (by rw [← hsplit]; exact hpre)
  rw [this] at hdev
  cases hdev

/-- Witness for C3: the path `hello` goes verbatim and its token does
not carry the sentinel marker. -/
theorem C3_verbatim_no_sentinel_witness :
    starts_with (path_to_path_string [104, 101, 108, 108, 111]) PREFIX
      = false :=
  C3_verbatim_no_sentinel [104, 101, 108, 108, 111]
    [104, 101, 108, 108, 111] (by decide) (by decide) (by decide)

/-- Counterexample to C3 as stated: the byte sequence of the sentinel
marker's own text is valid control-free UTF-8, takes the verbatim
branch, and the verbatim token starts with the sentinel marker. -/
theorem C3_counterexample :
    utf8Decode PREFIX = some PREFIX ∧
    should_be_encoded PREFIX = false ∧
    path_to_path_string PREFIX = PREFIX ∧
    starts_with (path_to_path_string PREFIX) PREFIX = true := by
  decide

/-! ## Claim C4 -/

/-- C4: any path whose text rendering contains at least one control
character (Rust's `char::is_control`, the Unicode Cc class) is encoded
to a token starting with the sentinel marker. -/
theorem C4_control_forces_sentinel (p s : List Nat)
    (hdec : utf8Decode p = some s)
    (hctl : ∃ c ∈ s, rustIsControl c = true) :
    starts_with (path_to_path_string p) PREFIX = true := by
  have hsbe : should_be_encoded s = true := by
    unfold should_be_encoded
    rw [List.any_eq_true]
    obtain ⟨c, hc, hcc⟩ := hctl
    exact ⟨c, hc, hcc⟩
  unfold path_to_path_string
  rw [hdec]
  simp only [hsbe, not_true_eq_false, if_false]
  exact starts_with_append PREFIX (base64Encode p)

/-- Witness for C4: the one-character path `\t`. -/
theorem C4_control_forces_sentinel_witness :
    starts_with (path_to_path_string [9]) PREFIX = true :=
  C4_control_forces_sentinel [9] [9] (by decide) ⟨9, by decide, by decide⟩

/-! ## Claim C5 -/

/-- C5: for any valid text `s` containing no control characters,
encoding the path whose bytes are the UTF-8 rendering of `s` returns
`s` itself, unchanged. -/
theorem C5_safe_text_verbatim (s : List Nat)
    (hv : ∀ c ∈ s, ValidScalar c)
    (hsafe : should_be_encoded s = false) :
    path_to_path_string (utf8Encode s) = s := by
  unfold path_to_path_string
  rw [utf8Decode_utf8Encode s hv]
  simp [hsafe]

/-- Witness for C5: the text `hello`. -/
theorem C5_safe_text_verbatim_witness :
    path_to_path_string (utf8Encode [104, 101, 108, 108, 111]) =
      [104, 101, 108, 108, 111] :=
  C5_safe_text_verbatim [104, 101, 108, 108, 111] (by decide) (by decide)

/-! ## Claim C6 -/

/-- C6: for every byte sequence `p`, the token produced by
`path_to_path_string` contains no control character (hence no line
terminator): in the verbatim case the classifier guarantees it, and in
the escaped case the sentinel marker and the base64 alphabet are all
printable. -/
theorem C6_token_has_no_control (p : List Nat) :
    (path_to_path_string p).any rustIsControl = false := by
  have hesc : (encode_os p).any rustIsControl = false := by
    unfold encode_os encode_bytes
    rw [List.any_append, Bool.or_eq_false_iff]
    exact ⟨by decide, base64Encode_no_control p⟩
  unfold path_to_path_string
  cases hdec : utf8Decode p with
  | none => exact hesc
  | some s =>
      show (if ¬should_be_encoded s = true then s else encode_os p).any
        rustIsControl = false
      by_cases hsbe : should_be_encoded s
      · rw [show (if ¬should_be_encoded s = true then s else encode_os p) =
            encode_os p from by simp [hsbe]]
        exact hesc
      · rw [show (if ¬should_be_encoded s = true then s else encode_os p) =
            s from by simp [hsbe]]
        simpa [should_be_encoded] using hsbe

/-! ## Claim C7 -/

/-- C7: the empty path encodes to the empty token (classified safe, no
sentinel) and the empty token decodes to the empty path. -/
theorem C7_empty_path :
    path_to_path_string [] = [] ∧
    path_string_to_path_buf [] = some [] := by
  decide

/-! ## Claim C8 -/

/-- C8: each 16-bit path unit is rendered as exactly two bytes, high
byte first (big-endian, independent of the host), and `bytes_to_u16`
inverts `u16_to_bytes` on every `u16` value. -/
theorem C8_u16_bytes_roundtrip (v : Nat) (hv : v < 65536) :
    u16_to_bytes v = [v / 256, v % 256] ∧
    (∀ b1 b2, u16_to_bytes v = [b1, b2] → bytes_to_u16 b1 b2 = v) := by
  have h1 : u16_to_bytes v = [v / 256, v % 256] := by
    unfold u16_to_bytes
    have : v / 256 % 256 = v / 256 := by omega
    rw [this]
  refine ⟨h1, ?_⟩
  intro b1 b2 h
  rw [h1] at h
  simp only [List.cons.injEq, and_true] at h
  obtain ⟨rfl, rfl, -⟩ := h
  unfold bytes_to_u16
  omega

/-- Witness for C8: the value 0xABCD renders as the bytes 0xAB, 0xCD
and converts back. -/
theorem C8_u16_bytes_roundtrip_witness :
    u16_to_bytes 43981 = [171, 205] ∧ bytes_to_u16 171 205 = 43981 := by
  have h := C8_u16_bytes_roundtrip 43981 (by decide)
  exact ⟨by rw [h.1], h.2 171 205 (by rw [h.1])⟩

/-! ## The MRU list of `src/mru_list.rs` -/

/-- The `MRUList` struct: a change flag, the maximum number of items,
and the backing vector (front of the list = most recently used). -/
structure MRUList (α : Type) where
  is_changed : Bool
  max_items : Nat
  data : List α
deriving DecidableEq

namespace MRUList

/-- `MRUList::new`: an empty, unchanged list with the given capacity. -/
def new (α : Type) (max_items : Nat) : MRUList α :=
  ⟨false, max_items, []⟩

/-- Remove the first occurrence of `v` (Rust
`Vec::remove(position(..))`). -/
def removeFirst [DecidableEq α] : List α → α → List α
  | [], _ => []
  | x :: xs, v => if x = v then xs else x :: removeFirst xs v

/-- `MRUList::remove`: drop the first occurrence of `value` if present
and mark the list changed; otherwise leave the list untouched. -/
def remove [DecidableEq α] (m : MRUList α) (value : α) : MRUList α :=
  if value ∈ m.data then
    { m with data := removeFirst m.data value, is_changed := true }
  else m

/-- `MRUList::insert`: remove `value` if present, push it at the front,
truncate to `max_items`, and mark the list changed. -/
def insert [DecidableEq α] (m : MRUList α) (value : α) : MRUList α :=
  let m1 := remove m value
  { is_changed := true
    max_items := m.max_items
    data := (value :: m1.data).take m.max_items }

/-- An interaction with the list: one `insert` or one `remove` call. -/
inductive Op (α : Type) where
  | ins (v : α)
  | rem (v : α)
deriving DecidableEq

/-- Apply one operation. -/
def applyOp [DecidableEq α] (m : MRUList α) : Op α → MRUList α
  | .ins v => m.insert v
  | .rem v => m.remove v

/-- Apply a sequence of operations from left to right. -/
def applyOps [DecidableEq α] (m : MRUList α) : List (Op α) → MRUList α
  | [] => m
  | op :: ops => applyOps (applyOp m op) ops

theorem mem_of_mem_removeFirst [DecidableEq α] :
    ∀ (l : List α) (v a : α), a ∈ removeFirst l v → a ∈ l := by
  intro l v
  induction l with
  | nil =>
      intro a h
      simp [removeFirst] at h
  | cons x xs ih =>
      intro a h
      rw [removeFirst] at h
      split_ifs at h with hx
      · exact List.mem_cons_of_mem x h
      · rcases List.mem_cons.mp h with h1 | h2
        · exact h1 ▸ List.mem_cons_self x xs
        · exact List.mem_cons_of_mem x (ih a h2)

theorem length_removeFirst_le [DecidableEq α] :
    ∀ (l : List α) (v : α), (removeFirst l v).length ≤ l.length := by
  intro l v
  induction l with
  | nil => simp [removeFirst]
  | cons x xs ih =>
      rw [removeFirst]
      split_ifs with hx
      · simp
      · simpa using ih

theorem nodup_removeFirst [DecidableEq α] :
    ∀ (l : List α) (v : α), l.Nodup → (removeFirst l v).Nodup := by
  intro l v
  induction l with
  | nil =>
      intro _
      simp [removeFirst]
  | cons x xs ih =>
      intro h
      rw [List.nodup_cons] at h
      rw [removeFirst]
      split_ifs with hx
      · exact h.2
      · rw [List.nodup_cons]
        exact ⟨fun hc => h.1 (mem_of_mem_removeFirst xs v x hc),
          ih h.2⟩

theorem not_mem_removeFirst [DecidableEq α] :
    ∀ (l : List α) (v : α), l.Nodup → v ∉ removeFirst l v := by
  intro l v
  induction l with
  | nil =>
      intro _
      simp [removeFirst]
  | cons x xs ih =>
      intro h
      rw [List.nodup_cons] at h
      rw [removeFirst]
      split_ifs with hx
      · rw [← hx]
        exact h.1
      · rw [List.mem_cons]
        rintro (h1 | h2)
        · exact hx h1.symm
        · exact ih h.2 h2

/-- The state invariant of an MRU list of capacity `n`: the capacity
field reads `n`, the length never exceeds `n`, and no value repeats. -/
def Inv (n : Nat) (m : MRUList α) : Prop :=
  m.max_items = n ∧ m.data.length ≤ n ∧ m.data.Nodup

theorem inv_new (α : Type) (n : Nat) : Inv n (new α n) := by
  refine ⟨rfl, by simp [new], by simp [new]⟩

theorem inv_remove [DecidableEq α] (n : Nat) (m : MRUList α) (v : α)
    (h : Inv n m) : Inv n (m.remove v) := by
  obtain ⟨h1, h2, h3⟩ := h
  unfold remove
  split_ifs with hmem
  · exact ⟨h1, le_trans (length_removeFirst_le m.data v) h2,
      nodup_removeFirst m.data v h3⟩
  · exact ⟨h1, h2, h3⟩

theorem inv_insert [DecidableEq α] (n : Nat) (m : MRUList α) (v : α)
    (h : Inv n m) : Inv n (m.insert v) := by
  have hrem := inv_remove n m v h
  obtain ⟨h1, h2, h3⟩ := hrem
  refine ⟨h.1, ?_, ?_⟩
  · simp only [insert]
    rw [← h.1]
    exact le_trans (List.length_take_le m.max_items _) le_rfl
  · simp only [insert]
    apply List.Nodup.sublist (List.take_sublist m.max_items _)
    rw [List.nodup_cons]
    constructor
    · unfold remove
      split_ifs with hmem
      · exact not_mem_removeFirst m.data v h.2.2
      · exact hmem
    · exact h3

theorem inv_applyOps [DecidableEq α] (n : Nat) :
    ∀ (ops : List (Op α)) (m : MRUList α), Inv n m →
      Inv n (applyOps m ops) := by
  intro ops
  induction ops with
  | nil =>
      intro m h
      exact h
  | cons op ops ih =>
      intro m h
      rw [applyOps]
      apply ih
      cases op with
      | ins v => exact inv_insert n m v h
      | rem v => exact inv_remove n m v h

theorem insert_head [DecidableEq α] (m : MRUList α) (v : α)
    (hn : 1 ≤ m.max_items) : (m.insert v).data.head? = some v := by
  unfold insert
  obtain ⟨k, hk⟩ : ∃ k, m.max_items = k + 1 :=
    ⟨m.max_items - 1, by omega⟩
  rw [hk]
  simp [List.take_succ_cons]

end MRUList

/-! ## Claim C9 -/

/-- C9 (amended): every list reachable from `new n` by inserts and
removes holds at most `n` items with no value occurring twice, and —
provided `n ≥ 1` — immediately after `insert v` the value `v` sits at
index 0.  (For `n = 0` the inserted value is truncated away at once,
see the counterexample.) -/
theorem C9_mru_invariant {α : Type} [DecidableEq α] (n : Nat)
    (ops : List (MRUList.Op α)) (v : α) :
    ((MRUList.new α n).applyOps ops).data.length ≤ n ∧
    ((MRUList.new α n).applyOps ops).data.Nodup ∧
    (1 ≤ n →
      (((MRUList.new α n).applyOps ops).insert v).data.head? = some v) := by
  have hinv := MRUList.inv_applyOps n ops (MRUList.new α n)
    (MRUList.inv_new α n)
  refine ⟨hinv.2.1, hinv.2.2, fun h1 => ?_⟩
  exact MRUList.insert_head _ v (by rw [hinv.1]; exact h1)

/-- Witness for C9: from `new 2`, after inserting 10, 20 and 30 and
removing 20 the list is `[30, 10]` minus truncation effects; the bundle
of invariants holds and a further insert of 7 lands at index 0. -/
theorem C9_mru_invariant_witness :
    ((MRUList.new Nat 2).applyOps
      [.ins 10, .ins 20, .ins 30, .rem 20]).data.length ≤ 2 ∧
    ((MRUList.new Nat 2).applyOps
      [.ins 10, .ins 20, .ins 30, .rem 20]).data.Nodup ∧
    (((MRUList.new Nat 2).applyOps
        [.ins 10, .ins 20, .ins 30, .rem 20]).insert 7).data.head? =
        some 7 :=
  ⟨(C9_mru_invariant 2 [.ins 10, .ins 20, .ins 30, .rem 20] 7).1,
   (C9_mru_invariant 2 [.ins 10, .ins 20, .ins 30, .rem 20] 7).2.1,
   (C9_mru_invariant 2 [.ins 10, .ins 20, .ins 30, .rem 20] 7).2.2
     (by decide)⟩

/-- Counterexample to C9 as stated: with capacity `n = 0`, inserting 5
into the fresh list leaves the list empty, so 5 is not at index 0. -/
theorem C9_counterexample :
    (((MRUList.new Nat 0).applyOps [.ins 5]).data.head? = some 5) = False := by
  simp only [eq_iff_iff, iff_false]
  decide

/-! ## The tilde helpers of `src/paths.rs`

Rust `Path`s are handled here at the level of their component lists,
which is the view `compress_tilde_impl` / `expand_tilde_impl` work
through (`components()`, `starts_with`, `push`).  A component is the
root directory, `.`, `..`, or a named entry; in any list produced by
`components()` the root directory and `.` can only appear first. -/

/-- One `std::path::Component` of a Unix path. -/
inductive Component where
  | rootDir
  | curDir
  | parentDir
  | normal (name : String)
deriving DecidableEq

/-- `PathBuf::push` of a single component: pushing the root directory
replaces the accumulated path (pushing an absolute path replaces), `.`
disappears against a non-empty accumulated path, anything else is
appended. -/
def pushComp (acc : List Component) : Component → List Component
  | .rootDir => [.rootDir]
  | .curDir => if acc = [] then [.curDir] else acc
  | .parentDir => acc ++ [.parentDir]
  | .normal name => acc ++ [.normal name]

/-- `Path::starts_with` at the component level: the second list is an
initial segment of the first. -/
def startsWithComps : List Component → List Component → Bool
  | _, [] => true
  | [], _ :: _ => false
  | x :: xs, y :: ys => decide (x = y) && startsWithComps xs ys

/-- A component that may appear after the head of a component list:
everything except the root directory and `.`. -/
def isPlain : Component → Bool
  | .rootDir => false
  | .curDir => false
  | .parentDir => true
  | .normal _ => true

/-- `compress_tilde_impl` from `src/paths.rs`: when the path starts
with the home directory, replace those leading components with `~`
(building the result by pushing the remaining components one by one). -/
def compress_tilde_impl (path home : List Component) : List Component :=
  if startsWithComps path home then
    (path.drop home.length).foldl pushComp [.normal "~"]
  else path

/-- `expand_tilde_impl` from `src/paths.rs`: when the path starts with
the single component `~`, replace it with the home directory (pushing
the remaining components one by one). -/
def expand_tilde_impl (path home : List Component) : List Component :=
  if startsWithComps path [.normal "~"] then
    (path.drop 1).foldl pushComp home
  else path

theorem startsWithComps_append (pre rest : List Component) :
    startsWithComps (pre ++ rest) pre = true := by
  induction pre with
  | nil => simp [startsWithComps]
  | cons x xs ih => simp [startsWithComps, ih]

theorem startsWithComps_drop :
    ∀ pre s : List Component, startsWithComps s pre = true →
      pre ++ s.drop pre.length = s := by
  intro pre
  induction pre with
  | nil =>
      intro s _
      simp
  | cons y ys ih =>
      intro s h
      cases s with
      | nil => simp [startsWithComps] at h
      | cons x xs =>
          simp only [startsWithComps, Bool.and_eq_true, decide_eq_true_eq]
            at h
          obtain ⟨rfl, h2⟩ := h
          simp only [List.length_cons, List.drop_succ_cons,
            List.cons_append, List.cons.injEq]
          exact ⟨trivial, ih xs h2⟩

theorem foldl_pushComp :
    ∀ (l : List Component) (acc : List Component),
      (∀ c ∈ l, isPlain c = true) → l.foldl pushComp acc = acc ++ l := by
  intro l
  induction l with
  | nil =>
      intro acc _
      simp
  | cons c cs ih =>
      intro acc h
      have hc : isPlain c = true := h c (by simp)
      have hpush : pushComp acc c = acc ++ [c] := by
        cases c with
        | rootDir => simp [isPlain] at hc
        | curDir => simp [isPlain] at hc
        | parentDir => rfl
        | normal name => rfl
      rw [List.foldl_cons, hpush,
        ih (acc ++ [c]) (fun x hx => h x (by simp [hx]))]
      simp

/-! ## Claim C10 -/

/-- C10: for every non-empty absolute home directory and every path
whose leading components equal those of home (and whose later
components are ordinary entries or `..`, as `components()` guarantees),
expanding the compressed form restores the original path, component for
component. -/
theorem C10_tilde_roundtrip (path home : List Component)
    (hne : home ≠ [])
    (habs : home.head? = some Component.rootDir)
    (hpre : startsWithComps path home = true)
    (hwf : path.tail.all isPlain = true) :
    expand_tilde_impl (compress_tilde_impl path home) home = path := by
  obtain ⟨rest, rfl⟩ : ∃ rest, path = home ++ rest :=
    ⟨path.drop home.length, (startsWithComps_drop home path hpre).symm⟩
  cases home with
  | nil => exact absurd rfl hne
  | cons h0 htl =>
      have hplain : ∀ c ∈ rest, isPlain c = true := by
        intro c hc
        have hmem : c ∈ ((h0 :: htl) ++ rest).tail := by
          simp only [List.cons_append, List.tail_cons]
          exact List.mem_append.mpr (Or.inr hc)
        exact List.all_eq_true.mp hwf c hmem
      unfold compress_tilde_impl
      rw [if_pos (startsWithComps_append (h0 :: htl) rest)]
      rw [List.drop_left, foldl_pushComp rest [Component.normal "~"] hplain]
      unfold expand_tilde_impl
      rw [if_pos (startsWithComps_append [Component.normal "~"] rest)]
      rw [show ([Component.normal "~"] ++ rest).drop 1 = rest from by simp]
      rw [foldl_pushComp rest (h0 :: htl) hplain]

/-- Witness for C10: home `/home/heart` and path `/home/heart/pics`. -/
theorem C10_tilde_roundtrip_witness :
    expand_tilde_impl
      (compress_tilde_impl
        [Component.rootDir, Component.normal "home",
         Component.normal "heart", Component.normal "pics"]
        [Component.rootDir, Component.normal "home",
         Component.normal "heart"])
      [Component.rootDir, Component.normal "home",
       Component.normal "heart"] =
    [Component.rootDir, Component.normal "home",
     Component.normal "heart", Component.normal "pics"] :=
  C10_tilde_roundtrip
    [Component.rootDir, Component.normal "home",
     Component.normal "heart", Component.normal "pics"]
    [Component.rootDir, Component.normal "home", Component.normal "heart"]
    (by simp) (by rfl) (by decide) (by decide)
